import Mathlib

/- Shallow embedding of `src/main.py` of the financial_data_source service.

A pandas DataFrame handled by the service is modelled as a `List Row`.  Each
`Row` is one observation: the DatetimeIndex entry is split into its
calendar-date component (`date`) and its time-of-day component (`time`), both
naturals, ordered lexicographically exactly as timestamps are; the column
values (Open/High/Low/Close/Volume for instruments, the single value for
macro series) are `vals`.

pandas semantics embedded here:
  - `DataFrame.drop_duplicates()` (line 154) compares COLUMN VALUES only,
    ignores the index, and keeps the first occurrence -> `dropDuplicates`.
  - `DataFrame.sort_index()` sorts by the timestamp index -> `sortIndex`.
    pandas' default quicksort is unstable; we model a stable insertion sort.
    No verified statement below depends on the relative order of rows whose
    full timestamps are equal.
  - `Index.min()/.max()` followed by `.date()` (lines 136-137) -> `tsMin`,
    `tsMax` over the lexicographic timestamp order, then first projection.
  - the boolean mask `index.date >= start & index.date <= end` with `.loc`
    (lines 163-164) -> `sliceRows`.

The asyncio lock discipline serialises all operations per key, so the
orchestrator is modelled as a sequential state transformer on the cache. -/

structure Row where
  date : Nat
  time : Nat
  vals : List Int
deriving DecidableEq, Repr

/-- Timestamp of a row: the full index entry (date, time-of-day). -/
def tsOf (r : Row) : Nat × Nat := (r.date, r.time)

/-- Lexicographic strict order on timestamps, as `Bool`. -/
def lexLtB (p q : Nat × Nat) : Bool :=
  decide (p.1 < q.1) || (decide (p.1 = q.1) && decide (p.2 < q.2))

/-- Non-strict timestamp order used to state sortedness of an index. -/
def leTs (a b : Row) : Prop :=
  a.date < b.date ∨ (a.date = b.date ∧ a.time ≤ b.time)

instance (a b : Row) : Decidable (leTs a b) :=
  inferInstanceAs (Decidable (_ ∨ _))

instance : IsTotal Row leTs :=
  ⟨fun a b => by unfold leTs; omega⟩

instance : IsTrans Row leTs :=
  ⟨fun a b c hab hbc => by unfold leTs at *; omega⟩

/-- Model of `cached_df.index.min()`: fold of the lexicographic minimum over
the timestamps.  The `(0, 0)` default is never reached on the non-empty
frames the service stores. -/
def tsMin : List Row → Nat × Nat
  | [] => (0, 0)
  | r :: rs => rs.foldl (fun acc x => if lexLtB (tsOf x) acc then tsOf x else acc) (tsOf r)

/-- Model of `cached_df.index.max()`. -/
def tsMax : List Row → Nat × Nat
  | [] => (0, 0)
  | r :: rs => rs.foldl (fun acc x => if lexLtB acc (tsOf x) then tsOf x else acc) (tsOf r)

/-- Model of `cached_df.index.min().date()` (line 136). -/
def availStart (df : List Row) : Nat := (tsMin df).1

/-- Model of `cached_df.index.max().date()` (line 137). -/
def availEnd (df : List Row) : Nat := (tsMax df).1

/-- Worker for `dropDuplicates`: `seen` is the set of value tuples of rows
already kept; a row is dropped exactly when its value tuple was seen. -/
def ddAux : List (List Int) → List Row → List Row
  | _, [] => []
  | seen, r :: rs =>
    if r.vals ∈ seen then ddAux seen rs else r :: ddAux (r.vals :: seen) rs

/-- Model of pandas `DataFrame.drop_duplicates()` (line 154): drops every row
whose column-value tuple already appeared in an earlier row; the index
(the dates) is ignored by the comparison, and the first occurrence is kept. -/
def dropDuplicates (l : List Row) : List Row := ddAux [] l

/-- Model of pandas `DataFrame.sort_index()` (line 154): sort rows by their
timestamp index, ascending. -/
def sortIndex (l : List Row) : List Row := l.insertionSort leTs

/-- Line 154: `pd.concat([cache[asset_id], fetched_df]).drop_duplicates().sort_index()`. -/
def mergeExisting (old new : List Row) : List Row :=
  sortIndex (dropDuplicates (old ++ new))

/-- Lines 163-164: boolean mask `index.date >= start_dt & index.date <= end_dt`
applied with `.loc`, keeping cached row order. -/
def sliceRows (df : List Row) (s e : Nat) : List Row :=
  df.filter (fun r => decide (s ≤ r.date) && decide (r.date ≤ e))

/-- The in-memory cache `cache = {}`: asset_id -> DataFrame, as an
association list. -/
abbrev Cache := List (String × List Row)

def cacheGet : Cache → String → Option (List Row)
  | [], _ => none
  | (k, v) :: rest, a => if k = a then some v else cacheGet rest a

def cacheSet : Cache → String → List Row → Cache
  | [], a, df => [(a, df)]
  | (k, v) :: rest, a, df =>
    if k = a then (a, df) :: rest else (k, v) :: cacheSet rest a df

/-- Line 43: `asset_id.startswith("M_")`, over the string's character list. -/
def isMacroMetric (a : String) : Bool :=
  match a.data with
  | 'M' :: '_' :: _ => true
  | _ => false

/-- Upstream provider behaviour (yfinance / FRED), abstracted: `none` models
the provider call raising, `some h` models the frame it returns. -/
abbrev Oracle := String → Nat → Nat → Option (List Row)

/-- Lines 46-57 / 60-70: both adapters raise `ValueError` when the provider
call fails or when the returned frame is empty, otherwise return the frame. -/
def adapterFetch (o : Oracle) (a : String) (s e : Nat) : Except String (List Row) :=
  match o a s e with
  | none => Except.error ("Error fetching data for " ++ a)
  | some h => if h = [] then Except.error ("No data found for " ++ a) else Except.ok h

/-- Lines 147-150: route to FRED for macro metrics, Yahoo Finance otherwise. -/
def routeFetch (yf fred : Oracle) (a : String) (s e : Nat) : Except String (List Row) :=
  if isMacroMetric a then adapterFetch fred a s e else adapterFetch yf a s e

/-- Errors surfaced by the endpoint.  `invalidRange` is the 400
`HTTPException`, `noData` the 404 `HTTPException` of line 167, `upstream` a
`ValueError` escaping `get_data` (lines 57, 70), which FastAPI does NOT map
to 404. -/
inductive Err where
  | invalidRange : Err
  | noData : Err
  | upstream : String → Err
deriving DecidableEq, Repr

/-- Model of `DataFrame.to_csv` (lines 79-81): header line then one line per
row, date first. -/
def serializeCsv (df : List Row) : String :=
  String.intercalate "\n"
    ("Date" :: df.map (fun r => String.intercalate "," (toString r.date :: r.vals.map toString)))

/-- The body of the `try` block of `backup_to_azure` (lines 78-97): serialize,
compress, upload.  `uploadOk = false` injects a storage failure (the
compression and upload steps are outside the repository; any of their
exceptions reaches the same `except` handler). -/
def backupPipeline (uploadOk : Bool) (a : String) (df : List Row) : Except String String :=
  let csv := serializeCsv df
  let blobName := a ++ ".csv.gz"
  if uploadOk then Except.ok ("uploaded " ++ blobName ++ " bytes " ++ toString csv.length)
  else Except.error "upload failed"

/-- Lines 73-99: `backup_to_azure` wraps the whole pipeline in
`try/except Exception`, turning any failure into a printed message; it never
raises and never touches the cache. -/
def backup_to_azure (uploadOk : Bool) (a : String) (df : List Row) : String :=
  match backupPipeline uploadOk a df with
  | Except.ok _ => "Backup successful for " ++ a
  | Except.error msg => "Error backing up data for " ++ a ++ ": " ++ msg

/-- Lines 152-156: store the fetched frame, merging when the key is present. -/
def mergeInsert (c : Cache) (a : String) (h : List Row) : Cache :=
  match cacheGet c a with
  | some old => cacheSet c a (mergeExisting old h)
  | none => cacheSet c a h

/-- Lines 134-143: `needs_fetch` — true when the key is absent, or the
requested bounds fall outside `[index.min().date(), index.max().date()]`. -/
def needsFetchB (c : Cache) (a : String) (s e : Nat) : Bool :=
  match cacheGet c a with
  | some df => decide (s < availStart df) || decide (e > availEnd df)
  | none => true

/-- Result of one request: the HTTP-level outcome, the cache afterwards, the
arguments of the upstream call if one was made, and the log lines printed by
the background backup task. -/
structure GetDataOut where
  resp : Except Err (List Row)
  cacheOut : Cache
  fetchCall : Option (String × Nat × Nat)
  logs : List String
deriving Repr

/-- Lines 161-171: slice the cached frame for the requested range; 404 when
the slice is empty, otherwise return it. -/
def respond (c : Cache) (a : String) (s e : Nat)
    (fc : Option (String × Nat × Nat)) (lg : List String) : GetDataOut :=
  if sliceRows ((cacheGet c a).getD []) s e = []
  then ⟨Except.error Err.noData, c, fc, lg⟩
  else ⟨Except.ok (sliceRows ((cacheGet c a).getD []) s e), c, fc, lg⟩

/-- Lines 112-171: the `/data` endpoint.  Validation, per-key lock (the lock
serialises requests, so one request is one sequential step), coverage check,
routed fetch passing the ORIGINAL `start_date`/`end_date`, merge, background
backup (its outcome lands only in `logs`), slice. -/
def get_data (uploadOk : Bool) (yf fred : Oracle) (c : Cache)
    (a : String) (s e : Nat) : GetDataOut :=
  if s > e then ⟨Except.error Err.invalidRange, c, none, []⟩
  else if needsFetchB c a s e then
    match routeFetch yf fred a s e with
    | Except.error msg => ⟨Except.error (Err.upstream msg), c, some (a, s, e), []⟩
    | Except.ok h =>
      respond (mergeInsert c a h) a s e (some (a, s, e))
        [backup_to_azure uploadOk a ((cacheGet (mergeInsert c a h) a).getD [])]
  else respond c a s e none []

/-- A sequence of requests against the service, threading the cache. -/
def runRequests (uploadOk : Bool) (yf fred : Oracle) :
    List (String × Nat × Nat) → Cache → Cache
  | [], c => c
  | (a, s, e) :: rest, c =>
    runRequests uploadOk yf fred rest (get_data uploadOk yf fred c a s e).cacheOut

/-- Every stored frame is sorted non-decreasing by timestamp. -/
def SortedCache (c : Cache) : Prop :=
  ∀ a df, cacheGet c a = some df → List.Sorted leTs df

/-- Adapter postcondition from the design contract: every frame a provider
returns is sorted ascending by timestamp. -/
def SortedOracle (o : Oracle) : Prop :=
  ∀ a s e df, o a s e = some df → List.Sorted leTs df

instance {eTy aTy : Type} [DecidableEq eTy] [DecidableEq aTy] :
    DecidableEq (Except eTy aTy) := fun x y =>
  match x, y with
  | Except.ok a, Except.ok b =>
    if h : a = b then isTrue (by rw [h]) else isFalse (by intro hc; cases hc; exact h rfl)
  | Except.error a, Except.error b =>
    if h : a = b then isTrue (by rw [h]) else isFalse (by intro hc; cases hc; exact h rfl)
  | Except.ok _, Except.error _ => isFalse (by intro hc; cases hc)
  | Except.error _, Except.ok _ => isFalse (by intro hc; cases hc)

theorem pickMin_fst (p : Nat × Nat) (r : Row) :
    (if lexLtB (tsOf r) p then tsOf r else p).1 = min p.1 r.date := by
  by_cases h : lexLtB (tsOf r) p = true
  · rw [if_pos h]
    simp only [lexLtB, tsOf, Bool.or_eq_true, Bool.and_eq_true, decide_eq_true_eq] at h
    show r.date = min p.1 r.date
    rw [min_def]
    split <;> omega
  · rw [if_neg h]
    simp only [lexLtB, tsOf, Bool.or_eq_true, Bool.and_eq_true, decide_eq_true_eq] at h
    rw [min_def]
    split <;> omega

theorem pickMax_fst (p : Nat × Nat) (r : Row) :
    (if lexLtB p (tsOf r) then tsOf r else p).1 = max p.1 r.date := by
  by_cases h : lexLtB p (tsOf r) = true
  · rw [if_pos h]
    simp only [lexLtB, tsOf, Bool.or_eq_true, Bool.and_eq_true, decide_eq_true_eq] at h
    show r.date = max p.1 r.date
    rw [max_def]
    split <;> omega
  · rw [if_neg h]
    simp only [lexLtB, tsOf, Bool.or_eq_true, Bool.and_eq_true, decide_eq_true_eq] at h
    rw [max_def]
    split <;> omega

theorem tsMin_fst_foldl (rs : List Row) : ∀ p : Nat × Nat,
    (rs.foldl (fun acc x => if lexLtB (tsOf x) acc then tsOf x else acc) p).1
      = rs.foldl (fun d x => min d x.date) p.1 := by
  induction rs with
  | nil => intro p; rfl
  | cons r rs ih =>
    intro p
    simp only [List.foldl_cons]
    rw [ih, pickMin_fst]

theorem tsMax_fst_foldl (rs : List Row) : ∀ p : Nat × Nat,
    (rs.foldl (fun acc x => if lexLtB acc (tsOf x) then tsOf x else acc) p).1
      = rs.foldl (fun d x => max d x.date) p.1 := by
  induction rs with
  | nil => intro p; rfl
  | cons r rs ih =>
    intro p
    simp only [List.foldl_cons]
    rw [ih, pickMax_fst]

theorem foldl_min_le_init (l : List Row) :
    ∀ i : Nat, l.foldl (fun d x => min d x.date) i ≤ i := by
  induction l with
  | nil => intro i; exact le_refl i
  | cons r rs ih =>
    intro i
    simp only [List.foldl_cons]
    exact le_trans (ih _) (min_le_left _ _)

theorem foldl_min_le_mem {r : Row} {l : List Row} (hr : r ∈ l) :
    ∀ i : Nat, l.foldl (fun d x => min d x.date) i ≤ r.date := by
  induction l with
  | nil => cases hr
  | cons x xs ih =>
    intro i
    simp only [List.foldl_cons]
    rcases List.mem_cons.mp hr with h | h
    · subst h
      exact le_trans (foldl_min_le_init _ _) (min_le_right _ _)
    · exact ih h _

theorem foldl_min_achieved (l : List Row) :
    ∀ i : Nat, l.foldl (fun d x => min d x.date) i = i
      ∨ ∃ r ∈ l, l.foldl (fun d x => min d x.date) i = r.date := by
  induction l with
  | nil => intro i; exact Or.inl rfl
  | cons x xs ih =>
    intro i
    simp only [List.foldl_cons]
    rcases ih (min i x.date) with h | ⟨r, hr, h⟩
    · rcases le_total i x.date with hle | hle
      · exact Or.inl (by rw [h]; exact min_eq_left hle)
      · exact Or.inr ⟨x, List.mem_cons_self x xs, by rw [h]; exact min_eq_right hle⟩
    · exact Or.inr ⟨r, List.mem_cons_of_mem x hr, h⟩

theorem foldl_max_init_le (l : List Row) :
    ∀ i : Nat, i ≤ l.foldl (fun d x => max d x.date) i := by
  induction l with
  | nil => intro i; exact le_refl i
  | cons r rs ih =>
    intro i
    simp only [List.foldl_cons]
    exact le_trans (le_max_left _ _) (ih _)

theorem foldl_max_mem_le {r : Row} {l : List Row} (hr : r ∈ l) :
    ∀ i : Nat, r.date ≤ l.foldl (fun d x => max d x.date) i := by
  induction l with
  | nil => cases hr
  | cons x xs ih =>
    intro i
    simp only [List.foldl_cons]
    rcases List.mem_cons.mp hr with h | h
    · subst h
      exact le_trans (le_max_right _ _) (foldl_max_init_le _ _)
    · exact ih h _

theorem foldl_max_achieved (l : List Row) :
    ∀ i : Nat, l.foldl (fun d x => max d x.date) i = i
      ∨ ∃ r ∈ l, l.foldl (fun d x => max d x.date) i = r.date := by
  induction l with
  | nil => intro i; exact Or.inl rfl
  | cons x xs ih =>
    intro i
    simp only [List.foldl_cons]
    rcases ih (max i x.date) with h | ⟨r, hr, h⟩
    · rcases le_total i x.date with hle | hle
      · exact Or.inr ⟨x, List.mem_cons_self x xs, by rw [h]; exact max_eq_right hle⟩
      · exact Or.inl (by rw [h]; exact max_eq_left hle)
    · exact Or.inr ⟨r, List.mem_cons_of_mem x hr, h⟩

theorem availStart_le_mem {r : Row} {df : List Row} (hr : r ∈ df) :
    availStart df ≤ r.date := by
  cases df with
  | nil => cases hr
  | cons x xs =>
    show (tsMin (x :: xs)).1 ≤ r.date
    unfold tsMin
    rw [tsMin_fst_foldl]
    rcases List.mem_cons.mp hr with h | h
    · subst h
      exact foldl_min_le_init _ _
    · exact foldl_min_le_mem h _

theorem mem_le_availEnd {r : Row} {df : List Row} (hr : r ∈ df) :
    r.date ≤ availEnd df := by
  cases df with
  | nil => cases hr
  | cons x xs =>
    show r.date ≤ (tsMax (x :: xs)).1
    unfold tsMax
    rw [tsMax_fst_foldl]
    rcases List.mem_cons.mp hr with h | h
    · subst h
      exact foldl_max_init_le _ _
    · exact foldl_max_mem_le h _

theorem availStart_achieved {df : List Row} (h : df ≠ []) :
    ∃ r ∈ df, availStart df = r.date := by
  cases df with
  | nil => exact absurd rfl h
  | cons x xs =>
    unfold availStart tsMin
    rw [tsMin_fst_foldl]
    rcases foldl_min_achieved xs x.date with h2 | ⟨r, hr, h2⟩
    · exact ⟨x, List.mem_cons_self x xs, by simpa [tsOf] using h2⟩
    · exact ⟨r, List.mem_cons_of_mem x hr, by simpa [tsOf] using h2⟩

theorem availEnd_achieved {df : List Row} (h : df ≠ []) :
    ∃ r ∈ df, availEnd df = r.date := by
  cases df with
  | nil => exact absurd rfl h
  | cons x xs =>
    unfold availEnd tsMax
    rw [tsMax_fst_foldl]
    rcases foldl_max_achieved xs x.date with h2 | ⟨r, hr, h2⟩
    · exact ⟨x, List.mem_cons_self x xs, by simpa [tsOf] using h2⟩
    · exact ⟨r, List.mem_cons_of_mem x hr, by simpa [tsOf] using h2⟩

theorem ddAux_subset {r : Row} : ∀ (seen : List (List Int)) (l : List Row),
    r ∈ ddAux seen l → r ∈ l := by
  intro seen l
  induction l generalizing seen with
  | nil => intro h; cases h
  | cons x xs ih =>
    intro h
    unfold ddAux at h
    split at h
    · exact List.mem_cons_of_mem x (ih _ h)
    · rcases List.mem_cons.mp h with h2 | h2
      · exact h2 ▸ List.mem_cons_self x xs
      · exact List.mem_cons_of_mem x (ih _ h2)

theorem ddAux_not_seen {r : Row} : ∀ (seen : List (List Int)) (l : List Row),
    r ∈ ddAux seen l → r.vals ∉ seen := by
  intro seen l
  induction l generalizing seen with
  | nil => intro h; cases h
  | cons x xs ih =>
    intro h
    unfold ddAux at h
    split at h
    · exact ih _ h
    · rcases List.mem_cons.mp h with h2 | h2
      · subst h2
        assumption
      · intro hc
        exact ih _ h2 (List.mem_cons_of_mem _ hc)

theorem ddAux_vals_nodup : ∀ (seen : List (List Int)) (l : List Row),
    ((ddAux seen l).map Row.vals).Nodup := by
  intro seen l
  induction l generalizing seen with
  | nil => exact List.nodup_nil
  | cons x xs ih =>
    unfold ddAux
    split
    · exact ih _
    · refine List.nodup_cons.mpr ⟨?_, ih _⟩
      intro hc
      rcases List.mem_map.mp hc with ⟨r, hr, hv⟩
      exact ddAux_not_seen _ _ hr (hv ▸ List.mem_cons_self _ _)

/-- Value tuples recorded after `ddAux` has walked over `l` starting from
`seen`. -/
def seenAfter (seen : List (List Int)) (l : List Row) : List (List Int) :=
  l.foldl (fun s r => if r.vals ∈ s then s else r.vals :: s) seen

theorem seenAfter_sub {v : List Int} : ∀ (seen : List (List Int)) (l : List Row),
    v ∈ seen → v ∈ seenAfter seen l := by
  intro seen l
  induction l generalizing seen with
  | nil => intro h; exact h
  | cons x xs ih =>
    intro h
    unfold seenAfter
    simp only [List.foldl_cons]
    split
    · exact ih _ h
    · exact ih _ (List.mem_cons_of_mem _ h)

theorem seenAfter_mem {r : Row} : ∀ (seen : List (List Int)) (l : List Row),
    r ∈ l → r.vals ∈ seenAfter seen l := by
  intro seen l
  induction l generalizing seen with
  | nil => intro h; cases h
  | cons x xs ih =>
    intro h
    unfold seenAfter
    simp only [List.foldl_cons]
    rcases List.mem_cons.mp h with h2 | h2
    · subst h2
      split <;> rename_i hs
      · exact seenAfter_sub _ _ hs
      · exact seenAfter_sub _ _ (List.mem_cons_self _ _)
    · split
      · exact ih _ h2
      · exact ih _ h2

theorem ddAux_cons (seen : List (List Int)) (x : Row) (l : List Row) :
    ddAux seen (x :: l)
      = if x.vals ∈ seen then ddAux seen l else x :: ddAux (x.vals :: seen) l :=
  rfl

theorem seenAfter_cons (seen : List (List Int)) (x : Row) (l : List Row) :
    seenAfter seen (x :: l)
      = seenAfter (if x.vals ∈ seen then seen else x.vals :: seen) l :=
  rfl

theorem ddAux_append : ∀ (seen : List (List Int)) (l1 l2 : List Row),
    ddAux seen (l1 ++ l2) = ddAux seen l1 ++ ddAux (seenAfter seen l1) l2 := by
  intro seen l1
  induction l1 generalizing seen with
  | nil => intro l2; rfl
  | cons x xs ih =>
    intro l2
    rw [List.cons_append, ddAux_cons, ddAux_cons, seenAfter_cons]
    by_cases hs : x.vals ∈ seen
    · rw [if_pos hs, if_pos hs, if_pos hs, ih]
    · rw [if_neg hs, if_neg hs, if_neg hs, ih, List.cons_append]

theorem ddAux_nil_of_all_seen : ∀ (seen : List (List Int)) (l : List Row),
    (∀ r ∈ l, r.vals ∈ seen) → ddAux seen l = [] := by
  intro seen l
  induction l generalizing seen with
  | nil => intro _; rfl
  | cons x xs ih =>
    intro h
    unfold ddAux
    rw [if_pos (h x (List.mem_cons_self x xs))]
    exact ih _ (fun r hr => h r (List.mem_cons_of_mem x hr))

theorem ddAux_eq_self : ∀ (seen : List (List Int)) (l : List Row),
    (∀ r ∈ l, r.vals ∉ seen) → (l.map Row.vals).Nodup → ddAux seen l = l := by
  intro seen l
  induction l generalizing seen with
  | nil => intro _ _; rfl
  | cons x xs ih =>
    intro hns hnd
    unfold ddAux
    rw [if_neg (hns x (List.mem_cons_self x xs))]
    congr 1
    apply ih
    · intro r hr
      intro hc
      rcases List.mem_cons.mp hc with h2 | h2
      · rcases List.nodup_cons.mp hnd with ⟨hx, _⟩
        exact hx (h2 ▸ List.mem_map_of_mem Row.vals hr)
      · exact hns r (List.mem_cons_of_mem x hr) h2
    · exact (List.nodup_cons.mp hnd).2

theorem mem_ddAux_left {r : Row} : ∀ (seen : List (List Int)) (l l2 : List Row),
    (∀ y ∈ l, y.vals ∉ seen) → (l.map Row.vals).Nodup → r ∈ l →
    r ∈ ddAux seen (l ++ l2) := by
  intro seen l l2
  induction l generalizing seen with
  | nil => intro _ _ h; cases h
  | cons x xs ih =>
    intro hns hnd hr
    show r ∈ ddAux seen (x :: (xs ++ l2))
    unfold ddAux
    rw [if_neg (hns x (List.mem_cons_self x xs))]
    rcases List.mem_cons.mp hr with h2 | h2
    · exact h2 ▸ List.mem_cons_self _ _
    · refine List.mem_cons_of_mem _ (ih _ ?_ (List.nodup_cons.mp hnd).2 h2)
      intro y hy
      intro hc
      rcases List.mem_cons.mp hc with h3 | h3
      · rcases List.nodup_cons.mp hnd with ⟨hx, _⟩
        exact hx (h3 ▸ List.mem_map_of_mem Row.vals hy)
      · exact hns y (List.mem_cons_of_mem x hy) h3

theorem ddAux_vals_cover {r : Row} : ∀ (seen : List (List Int)) (l : List Row),
    r ∈ l → r.vals ∈ seen ∨ ∃ r2 ∈ ddAux seen l, r2.vals = r.vals := by
  intro seen l
  induction l generalizing seen with
  | nil => intro h; cases h
  | cons x xs ih =>
    intro hr
    unfold ddAux
    rcases List.mem_cons.mp hr with h2 | h2
    · subst h2
      split <;> rename_i hs
      · exact Or.inl hs
      · exact Or.inr ⟨r, List.mem_cons_self _ _, rfl⟩
    · split <;> rename_i hs
      · exact ih _ h2
      · rcases ih (x.vals :: seen) h2 with h3 | ⟨r2, hr2, hv⟩
        · rcases List.mem_cons.mp h3 with h4 | h4
          · exact Or.inr ⟨x, List.mem_cons_self _ _, h4.symm⟩
          · exact Or.inl h4
        · exact Or.inr ⟨r2, List.mem_cons_of_mem _ hr2, hv⟩

theorem dropDuplicates_subset {r : Row} {l : List Row} :
    r ∈ dropDuplicates l → r ∈ l :=
  ddAux_subset [] l

theorem dropDuplicates_vals_nodup (l : List Row) :
    ((dropDuplicates l).map Row.vals).Nodup :=
  ddAux_vals_nodup [] l

theorem dropDuplicates_eq_self {l : List Row} (h : (l.map Row.vals).Nodup) :
    dropDuplicates l = l :=
  ddAux_eq_self [] l (fun r _ hc => (List.not_mem_nil r.vals) hc) h

theorem mem_dropDuplicates_left {r : Row} {l l2 : List Row}
    (hnd : (l.map Row.vals).Nodup) (hr : r ∈ l) :
    r ∈ dropDuplicates (l ++ l2) :=
  mem_ddAux_left [] l l2 (fun y _ hc => (List.not_mem_nil y.vals) hc) hnd hr

theorem dropDuplicates_vals_cover {r : Row} {l : List Row} (hr : r ∈ l) :
    ∃ r2 ∈ dropDuplicates l, r2.vals = r.vals := by
  rcases ddAux_vals_cover [] l hr with h | h
  · cases h
  · exact h

theorem dropDuplicates_append_self {l : List Row} (h : (l.map Row.vals).Nodup) :
    dropDuplicates (l ++ l) = l := by
  unfold dropDuplicates
  rw [ddAux_append]
  have h1 : ddAux [] l = l :=
    ddAux_eq_self [] l (fun r _ hc => (List.not_mem_nil r.vals) hc) h
  have h2 : ddAux (seenAfter [] l) l = [] :=
    ddAux_nil_of_all_seen _ l (fun r hr => seenAfter_mem [] l hr)
  rw [h1, h2, List.append_nil]

theorem sortIndex_sorted (l : List Row) : List.Sorted leTs (sortIndex l) :=
  List.sorted_insertionSort leTs l

theorem sortIndex_perm (l : List Row) : (sortIndex l).Perm l :=
  List.perm_insertionSort leTs l

theorem mem_sortIndex {r : Row} {l : List Row} : r ∈ sortIndex l ↔ r ∈ l :=
  (List.perm_insertionSort leTs l).mem_iff

theorem sortIndex_eq_self {l : List Row} (h : List.Sorted leTs l) : sortIndex l = l :=
  h.insertionSort_eq

theorem mergeExisting_sorted (old new : List Row) :
    List.Sorted leTs (mergeExisting old new) :=
  sortIndex_sorted _

theorem mergeExisting_subset {r : Row} {old new : List Row}
    (h : r ∈ mergeExisting old new) : r ∈ old ++ new :=
  dropDuplicates_subset (mem_sortIndex.mp h)

theorem mergeExisting_vals_nodup (old new : List Row) :
    ((mergeExisting old new).map Row.vals).Nodup := by
  have hperm : ((mergeExisting old new).map Row.vals).Perm
      ((dropDuplicates (old ++ new)).map Row.vals) :=
    (sortIndex_perm (dropDuplicates (old ++ new))).map Row.vals
  exact hperm.nodup_iff.mpr (dropDuplicates_vals_nodup (old ++ new))

theorem mem_mergeExisting_left {r : Row} {old new : List Row}
    (hnd : (old.map Row.vals).Nodup) (hr : r ∈ old) : r ∈ mergeExisting old new :=
  mem_sortIndex.mpr (mem_dropDuplicates_left hnd hr)

theorem mergeExisting_vals_cover {r : Row} {old new : List Row}
    (hr : r ∈ old ++ new) : ∃ r2 ∈ mergeExisting old new, r2.vals = r.vals := by
  rcases dropDuplicates_vals_cover hr with ⟨r2, hr2, hv⟩
  exact ⟨r2, mem_sortIndex.mpr hr2, hv⟩

theorem mergeExisting_absorb (old d : List Row) :
    mergeExisting (mergeExisting old d) d = mergeExisting old d := by
  set M := mergeExisting old d with hM
  have hnd : (M.map Row.vals).Nodup := mergeExisting_vals_nodup old d
  have h1 : dropDuplicates (M ++ d) = M := by
    unfold dropDuplicates
    rw [ddAux_append]
    have hself : ddAux [] M = M :=
      ddAux_eq_self [] M (fun r _ hc => (List.not_mem_nil r.vals) hc) hnd
    have hnil : ddAux (seenAfter [] M) d = [] := by
      apply ddAux_nil_of_all_seen
      intro r hr
      rcases @mergeExisting_vals_cover r old d (List.mem_append_right old hr) with ⟨r2, hr2, hv⟩
      exact hv ▸ seenAfter_mem [] M hr2
    rw [hself, hnil, List.append_nil]
  show sortIndex (dropDuplicates (M ++ d)) = M
  rw [h1]
  exact sortIndex_eq_self (hM ▸ mergeExisting_sorted old d)

theorem cacheGet_set_self (c : Cache) (a : String) (df : List Row) :
    cacheGet (cacheSet c a df) a = some df := by
  induction c with
  | nil => simp [cacheSet, cacheGet]
  | cons p rest ih =>
    rcases p with ⟨k, v⟩
    by_cases h : k = a
    · simp [cacheSet, cacheGet, h]
    · simp only [cacheSet, cacheGet, if_neg h]
      exact ih

theorem cacheGet_set_other {b a : String} (h : b ≠ a) (c : Cache) (df : List Row) :
    cacheGet (cacheSet c a df) b = cacheGet c b := by
  induction c with
  | nil =>
    simp only [cacheSet, cacheGet]
    rw [if_neg (fun hc => h hc.symm)]
  | cons p rest ih =>
    rcases p with ⟨k, v⟩
    by_cases hk : k = a
    · subst hk
      simp only [cacheSet, if_pos rfl, cacheGet]
      rw [if_neg (fun hc => h hc.symm), if_neg (fun hc => h hc.symm)]
    · simp only [cacheSet, if_neg hk, cacheGet]
      split
      · rfl
      · exact ih

theorem cacheSet_set (c : Cache) (a : String) (d1 d2 : List Row) :
    cacheSet (cacheSet c a d1) a d2 = cacheSet c a d2 := by
  induction c with
  | nil => simp [cacheSet]
  | cons p rest ih =>
    rcases p with ⟨k, v⟩
    by_cases h : k = a
    · simp [cacheSet, h]
    · simp only [cacheSet, if_neg h]
      rw [ih]

theorem respond_cacheOut (c : Cache) (a : String) (s e : Nat)
    (fc : Option (String × Nat × Nat)) (lg : List String) :
    (respond c a s e fc lg).cacheOut = c := by
  unfold respond
  split <;> rfl

theorem respond_fetchCall (c : Cache) (a : String) (s e : Nat)
    (fc : Option (String × Nat × Nat)) (lg : List String) :
    (respond c a s e fc lg).fetchCall = fc := by
  unfold respond
  split <;> rfl

theorem respond_resp (c : Cache) (a : String) (s e : Nat)
    (fc : Option (String × Nat × Nat)) (lg : List String) :
    (respond c a s e fc lg).resp
      = if sliceRows ((cacheGet c a).getD []) s e = []
        then Except.error Err.noData
        else Except.ok (sliceRows ((cacheGet c a).getD []) s e) := by
  unfold respond
  split <;> rfl

theorem respond_resp_ignores_logs (c : Cache) (a : String) (s e : Nat)
    (fc1 fc2 : Option (String × Nat × Nat)) (lg1 lg2 : List String) :
    (respond c a s e fc1 lg1).resp = (respond c a s e fc2 lg2).resp := by
  rw [respond_resp, respond_resp]

theorem get_data_uploadOk_indep (u1 u2 : Bool) (yf fred : Oracle) (c : Cache)
    (a : String) (s e : Nat) :
    (get_data u1 yf fred c a s e).resp = (get_data u2 yf fred c a s e).resp
    ∧ (get_data u1 yf fred c a s e).cacheOut = (get_data u2 yf fred c a s e).cacheOut
    ∧ (get_data u1 yf fred c a s e).fetchCall = (get_data u2 yf fred c a s e).fetchCall := by
  unfold get_data
  split
  · exact ⟨rfl, rfl, rfl⟩
  · split
    · cases hr : routeFetch yf fred a s e with
      | error msg => exact ⟨rfl, rfl, rfl⟩
      | ok h =>
        refine ⟨respond_resp_ignores_logs _ _ _ _ _ _ _ _, ?_, ?_⟩
        · rw [respond_cacheOut, respond_cacheOut]
        · rw [respond_fetchCall, respond_fetchCall]
    · exact ⟨rfl, rfl, rfl⟩

theorem get_data_fetch_error {yf fred : Oracle} {c : Cache} {a : String} {s e : Nat}
    {msg : String} (hv : ¬ s > e) (hn : needsFetchB c a s e = true)
    (hr : routeFetch yf fred a s e = Except.error msg) (u : Bool) :
    get_data u yf fred c a s e
      = ⟨Except.error (Err.upstream msg), c, some (a, s, e), []⟩ := by
  unfold get_data
  rw [if_neg hv, if_pos hn, hr]

theorem get_data_no_fetch {c : Cache} {a : String} {s e : Nat}
    (hv : ¬ s > e) (hn : needsFetchB c a s e = false) (u : Bool) (yf fred : Oracle) :
    get_data u yf fred c a s e = respond c a s e none [] := by
  unfold get_data
  rw [if_neg hv, hn]
  rfl

theorem get_data_fetch_ok {yf fred : Oracle} {c : Cache} {a : String} {s e : Nat}
    {h : List Row} (hv : ¬ s > e) (hn : needsFetchB c a s e = true)
    (hr : routeFetch yf fred a s e = Except.ok h) (u : Bool) :
    get_data u yf fred c a s e
      = respond (mergeInsert c a h) a s e (some (a, s, e))
          [backup_to_azure u a ((cacheGet (mergeInsert c a h) a).getD [])] := by
  unfold get_data
  rw [if_neg hv, if_pos hn, hr]

theorem adapterFetch_ok {o : Oracle} {a : String} {s e : Nat} {h : List Row}
    (hr : adapterFetch o a s e = Except.ok h) : o a s e = some h ∧ h ≠ [] := by
  unfold adapterFetch at hr
  cases ho : o a s e with
  | none => rw [ho] at hr; cases hr
  | some h2 =>
    rw [ho] at hr
    dsimp only at hr
    by_cases he : h2 = []
    · rw [if_pos he] at hr; cases hr
    · rw [if_neg he] at hr
      injection hr with h3
      subst h3
      exact ⟨rfl, he⟩

theorem routeFetch_ok_sorted {yf fred : Oracle} {a : String} {s e : Nat} {h : List Row}
    (hy : SortedOracle yf) (hf : SortedOracle fred)
    (hr : routeFetch yf fred a s e = Except.ok h) : List.Sorted leTs h := by
  unfold routeFetch at hr
  split at hr
  · exact hf a s e h (adapterFetch_ok hr).1
  · exact hy a s e h (adapterFetch_ok hr).1

theorem mergeInsert_sorted {c : Cache} {a : String} {h : List Row}
    (hc : SortedCache c) (hs : List.Sorted leTs h) :
    SortedCache (mergeInsert c a h) := by
  intro b df hb
  unfold mergeInsert at hb
  cases hg : cacheGet c a with
  | some old =>
    rw [hg] at hb
    by_cases hba : b = a
    · subst hba
      rw [cacheGet_set_self] at hb
      cases hb
      exact mergeExisting_sorted old h
    · rw [cacheGet_set_other hba] at hb
      exact hc b df hb
  | none =>
    rw [hg] at hb
    by_cases hba : b = a
    · subst hba
      rw [cacheGet_set_self] at hb
      cases hb
      exact hs
    · rw [cacheGet_set_other hba] at hb
      exact hc b df hb

theorem get_data_sorted {yf fred : Oracle} {c : Cache} {a : String} {s e : Nat} {u : Bool}
    (hy : SortedOracle yf) (hf : SortedOracle fred) (hc : SortedCache c) :
    SortedCache (get_data u yf fred c a s e).cacheOut := by
  unfold get_data
  split
  · exact hc
  · split
    · cases hr : routeFetch yf fred a s e with
      | error msg => exact hc
      | ok h =>
        rw [respond_cacheOut]
        exact mergeInsert_sorted hc (routeFetch_ok_sorted hy hf hr)
    · rw [respond_cacheOut]
      exact hc

theorem runRequests_sorted {yf fred : Oracle} {u : Bool}
    (hy : SortedOracle yf) (hf : SortedOracle fred) :
    ∀ (reqs : List (String × Nat × Nat)) (c : Cache), SortedCache c →
      SortedCache (runRequests u yf fred reqs c) := by
  intro reqs
  induction reqs with
  | nil => intro c hc; exact hc
  | cons q rest ih =>
    intro c hc
    rcases q with ⟨a, s, e⟩
    exact ih _ (get_data_sorted hy hf hc)

theorem mergeInsert_absent {c : Cache} {a : String} (hg : cacheGet c a = none)
    (h : List Row) : mergeInsert c a h = cacheSet c a h := by
  unfold mergeInsert
  rw [hg]

theorem mergeInsert_present {c : Cache} {a : String} {old : List Row}
    (hg : cacheGet c a = some old) (h : List Row) :
    mergeInsert c a h = cacheSet c a (mergeExisting old h) := by
  unfold mergeInsert
  rw [hg]

theorem needsFetchB_iff {c : Cache} {a : String} {s e : Nat} :
    needsFetchB c a s e = true
      ↔ (cacheGet c a = none
          ∨ ∃ df, cacheGet c a = some df ∧ (s < availStart df ∨ e > availEnd df)) := by
  unfold needsFetchB
  cases hg : cacheGet c a with
  | none => simp
  | some df =>
    simp only [Bool.or_eq_true, decide_eq_true_eq]
    constructor
    · intro h
      exact Or.inr ⟨df, rfl, h⟩
    · rintro (h | ⟨df2, hdf2, h⟩)
      · exact Option.noConfusion h
      · injection hdf2 with hd
        subst hd
        exact h

theorem get_data_fetchCall_of_fetch {yf fred : Oracle} {c : Cache} {a : String}
    {s e : Nat} (hv : ¬ s > e) (hn : needsFetchB c a s e = true) (u : Bool) :
    (get_data u yf fred c a s e).fetchCall = some (a, s, e) := by
  cases hr : routeFetch yf fred a s e with
  | error msg => rw [get_data_fetch_error hv hn hr]
  | ok h => rw [get_data_fetch_ok hv hn hr, respond_fetchCall]

theorem availStart_map_time (f : Row → Nat) (df : List Row) :
    availStart (df.map (fun r => ⟨r.date, f r, r.vals⟩)) = availStart df := by
  cases df with
  | nil => rfl
  | cons x xs =>
    unfold availStart tsMin
    simp only [List.map_cons]
    rw [tsMin_fst_foldl, tsMin_fst_foldl, List.foldl_map]
    rfl

theorem availEnd_map_time (f : Row → Nat) (df : List Row) :
    availEnd (df.map (fun r => ⟨r.date, f r, r.vals⟩)) = availEnd df := by
  cases df with
  | nil => rfl
  | cons x xs =>
    unfold availEnd tsMax
    simp only [List.map_cons]
    rw [tsMax_fst_foldl, tsMax_fst_foldl, List.foldl_map]
    rfl

/-- Claim C1, counterexample.  The claim says the merge "removes rows with
duplicate dates keeping the last-written row".  Merging a fetched row for
date 1 with values `[20]` into an entry holding date 1 with values `[10]`
keeps BOTH rows: `drop_duplicates()` compares column values and ignores the
index, so rows that share a date but differ in values are never
deduplicated, and the result has a duplicate date. -/
theorem claim_C1_counterexample :
    mergeExisting [⟨1, 0, [10]⟩] [⟨1, 0, [20]⟩] = [⟨1, 0, [10]⟩, ⟨1, 0, [20]⟩]
    ∧ ¬ ((mergeExisting [⟨1, 0, [10]⟩] [⟨1, 0, [20]⟩]).map Row.date).Nodup := by
  decide

/-- Claim C1 (amended): for every key present in the cache and every newly
fetched dataset, the merge concatenates existing and new rows, removes the
rows whose full column-value tuple already occurred earlier in the
concatenation (first occurrence kept; dates are ignored by the comparison),
and re-sorts the result ascending (non-strictly) by timestamp. -/
theorem claim_C1_merge_semantics (old new : List Row) :
    List.Sorted leTs (mergeExisting old new)
    ∧ (mergeExisting old new).Perm (dropDuplicates (old ++ new))
    ∧ (∀ r ∈ mergeExisting old new, r ∈ old ++ new)
    ∧ ((mergeExisting old new).map Row.vals).Nodup
    ∧ (∀ r ∈ old ++ new, ∃ r2 ∈ mergeExisting old new, r2.vals = r.vals) :=
  ⟨mergeExisting_sorted old new,
   sortIndex_perm _,
   fun _ hr => mergeExisting_subset hr,
   mergeExisting_vals_nodup old new,
   fun _ hr => mergeExisting_vals_cover hr⟩

/-- Claim C3, counterexample.  Claim: after a successful merge the coverage
maximum never decreases.  Existing entry: dates 1 and 5, both with values
`[7]` (a constant series).  Fetched frame: date 2 with values `[9]`.
`drop_duplicates()` removes the date-5 row because its VALUES duplicate the
date-1 row, so the merged entry is dates 1 and 2 and the coverage maximum
drops from 5 to 2. -/
theorem claim_C3_counterexample :
    cacheGet (mergeInsert [("A", [⟨1, 0, [7]⟩, ⟨5, 0, [7]⟩])] "A" [⟨2, 0, [9]⟩]) "A"
      = some [⟨1, 0, [7]⟩, ⟨2, 0, [9]⟩]
    ∧ availEnd [(⟨1, 0, [7]⟩ : Row), ⟨5, 0, [7]⟩] = 5
    ∧ availEnd [(⟨1, 0, [7]⟩ : Row), ⟨2, 0, [9]⟩] = 2 := by
  decide

/-- Claim C3 (amended): after a successful merge into an existing non-empty
entry whose rows have pairwise-distinct value tuples, the coverage minimum is
non-increasing and the coverage maximum non-decreasing (without the
distinctness proviso, `drop_duplicates()` can delete boundary rows of the old
entry, see the counterexample). -/
theorem claim_C3_coverage (new : List Row) {old : List Row}
    (hne : old ≠ []) (hnd : (old.map Row.vals).Nodup) :
    availStart (mergeExisting old new) ≤ availStart old
    ∧ availEnd old ≤ availEnd (mergeExisting old new) := by
  obtain ⟨rm, hrm, hmin⟩ := availStart_achieved hne
  obtain ⟨rM, hrM, hmax⟩ := availEnd_achieved hne
  constructor
  · rw [hmin]
    exact availStart_le_mem (mem_mergeExisting_left hnd hrm)
  · rw [hmax]
    exact mem_le_availEnd (mem_mergeExisting_left hnd hrM)

/-- Claim C3 witness at a concrete input. -/
theorem claim_C3_witness :
    availStart (mergeExisting [⟨3, 0, [1]⟩, ⟨4, 0, [2]⟩] [⟨1, 0, [9]⟩])
        ≤ availStart [(⟨3, 0, [1]⟩ : Row), ⟨4, 0, [2]⟩]
    ∧ availEnd [(⟨3, 0, [1]⟩ : Row), ⟨4, 0, [2]⟩]
        ≤ availEnd (mergeExisting [⟨3, 0, [1]⟩, ⟨4, 0, [2]⟩] [⟨1, 0, [9]⟩]) :=
  claim_C3_coverage [⟨1, 0, [9]⟩] (by decide) (by decide)

/-- Claim C4, counterexample.  Claim: merging the same dataset twice is
idempotent for EVERY dataset.  Take the dataset with dates 1 and 2, both
with values `[7]`, into an absent key: the first merge stores it verbatim
(two rows); the second merge concatenates two copies and `drop_duplicates()`
— which ignores dates — collapses all four rows to the single date-1 row, so
the content differs from a single merge. -/
theorem claim_C4_counterexample :
    cacheGet (mergeInsert [] "A" [⟨1, 0, [7]⟩, ⟨2, 0, [7]⟩]) "A"
      = some [⟨1, 0, [7]⟩, ⟨2, 0, [7]⟩]
    ∧ cacheGet (mergeInsert (mergeInsert [] "A" [⟨1, 0, [7]⟩, ⟨2, 0, [7]⟩]) "A"
        [⟨1, 0, [7]⟩, ⟨2, 0, [7]⟩]) "A" = some [⟨1, 0, [7]⟩]
    ∧ ([(⟨1, 0, [7]⟩ : Row)] : List Row) ≠ [⟨1, 0, [7]⟩, ⟨2, 0, [7]⟩] := by
  decide

/-- Claim C4 (amended): merging the same dataset into a key twice yields a
cache identical to merging it once, provided the dataset is strictly
ascending by date and its rows have pairwise-distinct value tuples (the
counterexample shows the unrestricted claim fails); when the key was absent
the stored entry is the dataset itself and has no duplicate dates. -/
theorem claim_C4_idempotent (c : Cache) (a : String) (d : List Row)
    (hnd : (d.map Row.vals).Nodup)
    (hsort : List.Pairwise (fun x y : Row => x.date < y.date) d) :
    mergeInsert (mergeInsert c a d) a d = mergeInsert c a d
    ∧ (cacheGet c a = none →
        cacheGet (mergeInsert c a d) a = some d ∧ (d.map Row.date).Nodup) := by
  have hleSort : List.Sorted leTs d := hsort.imp (fun hlt => Or.inl hlt)
  have hdd : mergeExisting d d = d := by
    unfold mergeExisting
    rw [dropDuplicates_append_self hnd]
    exact sortIndex_eq_self hleSort
  constructor
  · cases hg : cacheGet c a with
    | none =>
      rw [mergeInsert_absent hg, mergeInsert_present (cacheGet_set_self c a d), hdd,
        cacheSet_set]
    | some old =>
      rw [mergeInsert_present hg,
        mergeInsert_present (cacheGet_set_self c a (mergeExisting old d)),
        mergeExisting_absorb, cacheSet_set]
  · intro hg
    rw [mergeInsert_absent hg, cacheGet_set_self]
    refine ⟨rfl, ?_⟩
    have hne : List.Pairwise (fun x y : Row => x.date ≠ y.date) d :=
      hsort.imp (fun hlt => Nat.ne_of_lt hlt)
    exact List.pairwise_map.mpr hne

/-- Claim C4 witness at a concrete input. -/
theorem claim_C4_witness :
    mergeInsert (mergeInsert [] "A" [⟨1, 0, [5]⟩, ⟨2, 0, [6]⟩]) "A" [⟨1, 0, [5]⟩, ⟨2, 0, [6]⟩]
      = mergeInsert [] "A" [⟨1, 0, [5]⟩, ⟨2, 0, [6]⟩]
    ∧ (cacheGet ([] : Cache) "A" = none →
        cacheGet (mergeInsert [] "A" [⟨1, 0, [5]⟩, ⟨2, 0, [6]⟩]) "A"
          = some [⟨1, 0, [5]⟩, ⟨2, 0, [6]⟩]
        ∧ (([⟨1, 0, [5]⟩, ⟨2, 0, [6]⟩] : List Row).map Row.date).Nodup) :=
  claim_C4_idempotent [] "A" [⟨1, 0, [5]⟩, ⟨2, 0, [6]⟩] (by decide) (by decide)

/-- Oracle used by the C2 counterexample: the first request (end 1) returns
the date-1 row with values `[10]`; the re-fetch for end 2 returns date 1
with the revised values `[20]` plus date 2 — a perfectly contract-abiding
adapter (sorted, non-empty, within the requested window). -/
def oracleCex : Oracle := fun _ _ e =>
  if e = 1 then some [⟨1, 0, [10]⟩] else some [⟨1, 0, [20]⟩, ⟨2, 0, [21]⟩]

/-- Claim C2, counterexample.  Claim: at all times each cached dataset is
strictly ascending with no duplicate dates.  After the two requests below —
both answered by sorted, non-empty adapter frames — the entry for "A" holds
the date 1 twice (`drop_duplicates()` never removes same-date rows whose
values differ), refuting the invariant. -/
theorem claim_C2_counterexample :
    List.Sorted leTs [(⟨1, 0, [10]⟩ : Row)]
    ∧ List.Sorted leTs [(⟨1, 0, [20]⟩ : Row), ⟨2, 0, [21]⟩]
    ∧ cacheGet (runRequests true oracleCex oracleCex [("A", 1, 1), ("A", 1, 2)] []) "A"
        = some [⟨1, 0, [10]⟩, ⟨1, 0, [20]⟩, ⟨2, 0, [21]⟩]
    ∧ ¬ (([(⟨1, 0, [10]⟩ : Row), ⟨1, 0, [20]⟩, ⟨2, 0, [21]⟩].map Row.date)).Nodup := by
  decide

/-- Claim C2 (amended): for every key and after any sequence of requests
served with adapters that return timestamp-sorted frames, the cached dataset
is sorted non-decreasing by timestamp (hence non-decreasing by date);
strict ascent / date uniqueness does NOT hold, see the counterexample. -/
theorem claim_C2_sorted_invariant {yf fred : Oracle} (u : Bool)
    (hy : SortedOracle yf) (hf : SortedOracle fred)
    (reqs : List (String × Nat × Nat)) :
    SortedCache (runRequests u yf fred reqs []) :=
  runRequests_sorted hy hf reqs [] (fun _ _ hb => Option.noConfusion hb)

/-- Constant-output oracle used by several witnesses: one sorted row. -/
def oracleConst : Oracle := fun _ _ _ => some [⟨1, 0, [5]⟩]

theorem oracleConst_sorted : SortedOracle oracleConst := by
  intro a s e df hd
  injection hd with hd
  subst hd
  exact List.sorted_singleton _

/-- Claim C2 witness at a concrete input. -/
theorem claim_C2_witness :
    SortedCache (runRequests true oracleConst oracleConst [("A", 1, 1)] []) :=
  claim_C2_sorted_invariant true oracleConst_sorted oracleConst_sorted [("A", 1, 1)]

/-- Claim C5, counterexample.  Claim: when a range is partly covered, only
the missing portion is fetched.  Cache covers dates 5..10 for "AAPL"; the
request 1..10 is partly covered (only dates before 5 are missing), yet the
upstream call is made with the FULL original range (1, 10), re-fetching the
already covered 5..10 portion. -/
theorem claim_C5_counterexample :
    availStart [(⟨5, 0, [1]⟩ : Row), ⟨10, 0, [2]⟩] = 5
    ∧ availEnd [(⟨5, 0, [1]⟩ : Row), ⟨10, 0, [2]⟩] = 10
    ∧ (get_data true oracleConst oracleConst [("AAPL", [⟨5, 0, [1]⟩, ⟨10, 0, [2]⟩])]
        "AAPL" 1 10).fetchCall = some ("AAPL", 1, 10) := by
  decide

/-- Claim C5 (amended): whenever a fetch is triggered, the upstream adapter
is invoked with exactly the originally requested start and end dates — the
whole requested range, not the missing portion. -/
theorem claim_C5_full_range_fetch {c : Cache} {a : String} {s e : Nat}
    (u : Bool) (yf fred : Oracle) (hv : s ≤ e) (hn : needsFetchB c a s e = true) :
    (get_data u yf fred c a s e).fetchCall = some (a, s, e) :=
  get_data_fetchCall_of_fetch (not_lt.mpr hv) hn u

/-- Claim C5 witness at a concrete input. -/
theorem claim_C5_witness :
    (get_data true oracleConst oracleConst [] "AAPL" 1 2).fetchCall = some ("AAPL", 1, 2) :=
  claim_C5_full_range_fetch true oracleConst oracleConst (by decide) (by decide)

/-- Claim C6: for a valid range, an upstream fetch happens exactly when the
key is absent or the requested bounds exceed the cached coverage
`[index.min().date(), index.max().date()]`; otherwise the request is served
from the cache, which is left untouched. -/
theorem claim_C6_fetch_condition {c : Cache} {a : String} {s e : Nat}
    (u : Bool) (yf fred : Oracle) (hv : s ≤ e) :
    ((get_data u yf fred c a s e).fetchCall ≠ none
      ↔ (cacheGet c a = none
          ∨ ∃ df, cacheGet c a = some df ∧ (s < availStart df ∨ e > availEnd df)))
    ∧ ((get_data u yf fred c a s e).fetchCall = none
        → (get_data u yf fred c a s e).cacheOut = c) := by
  have hv2 : ¬ s > e := not_lt.mpr hv
  constructor
  · rw [← needsFetchB_iff]
    cases hn : needsFetchB c a s e with
    | false =>
      rw [get_data_no_fetch hv2 hn u yf fred, respond_fetchCall]
      simp
    | true =>
      rw [get_data_fetchCall_of_fetch hv2 hn u]
      simp
  · intro h
    cases hn : needsFetchB c a s e with
    | false => rw [get_data_no_fetch hv2 hn u yf fred, respond_cacheOut]
    | true =>
      rw [get_data_fetchCall_of_fetch hv2 hn u] at h
      cases h

/-- Claim C6 witness at a concrete input. -/
theorem claim_C6_witness :
    ((get_data true oracleConst oracleConst [] "AAPL" 1 2).fetchCall ≠ none
      ↔ (cacheGet ([] : Cache) "AAPL" = none
          ∨ ∃ df, cacheGet ([] : Cache) "AAPL" = some df
              ∧ (1 < availStart df ∨ 2 > availEnd df)))
    ∧ ((get_data true oracleConst oracleConst [] "AAPL" 1 2).fetchCall = none
        → (get_data true oracleConst oracleConst [] "AAPL" 1 2).cacheOut = []) :=
  claim_C6_fetch_condition true oracleConst oracleConst (by decide)

/-- Always-failing oracle: the provider call raises. -/
def oracleFail : Oracle := fun _ _ _ => none

/-- Claim C7, counterexample.  Claim: an adapter failure is surfaced as a
404-equivalent "no data" error.  The code raises a plain `ValueError`
(lines 56-57), which is NOT the 404 `HTTPException` of line 167 — FastAPI
renders such an uncaught exception as a generic server error, not 404.  The
cache IS left untouched (that half of the claim holds). -/
theorem claim_C7_counterexample :
    (get_data true oracleFail oracleFail [] "AAPL" 1 2).resp
        = Except.error (Err.upstream ("Error fetching data for " ++ "AAPL"))
    ∧ (get_data true oracleFail oracleFail [] "AAPL" 1 2).resp
        ≠ Except.error Err.noData
    ∧ (get_data true oracleFail oracleFail [] "AAPL" 1 2).cacheOut = [] := by
  decide

/-- Claim C7 (amended): whenever the routed upstream adapter fails (provider
error or empty frame), the cache is left exactly as it was — absent keys
stay absent, present entries unchanged — and the failure surfaces as an
upstream `ValueError` (distinct from the 404 no-data `HTTPException`). -/
theorem claim_C7_upstream_failure {yf fred : Oracle} {c : Cache} {a : String}
    {s e : Nat} {msg : String} (u : Bool) (hv : s ≤ e)
    (hn : needsFetchB c a s e = true)
    (hr : routeFetch yf fred a s e = Except.error msg) :
    (get_data u yf fred c a s e).resp = Except.error (Err.upstream msg)
    ∧ (get_data u yf fred c a s e).cacheOut = c := by
  rw [get_data_fetch_error (not_lt.mpr hv) hn hr]
  exact ⟨rfl, rfl⟩

/-- Claim C7 witness at a concrete input. -/
theorem claim_C7_witness :
    (get_data true oracleFail oracleFail [] "AAPL" 1 2).resp
        = Except.error (Err.upstream ("Error fetching data for " ++ "AAPL"))
    ∧ (get_data true oracleFail oracleFail [] "AAPL" 1 2).cacheOut = [] :=
  claim_C7_upstream_failure true (by decide) (by decide) (by decide)

/-- Claim C8: for a key present in the cache on a covered (no-fetch) valid
request, the slice contains exactly the cached rows with `s <= date <= e`
and no others, in cached (hence date-ascending) order, and the request
answers 404 `NoData` when the slice is empty and the slice itself
otherwise. -/
theorem claim_C8_slice {c : Cache} {a : String} {s e : Nat} {df : List Row}
    (u : Bool) (yf fred : Oracle) (hv : s ≤ e)
    (hg : cacheGet c a = some df) (hn : needsFetchB c a s e = false)
    (hsort : List.Sorted leTs df) :
    (∀ r : Row, r ∈ sliceRows df s e ↔ (r ∈ df ∧ s ≤ r.date ∧ r.date ≤ e))
    ∧ (sliceRows df s e).Sublist df
    ∧ List.Pairwise (fun x y : Row => x.date ≤ y.date) (sliceRows df s e)
    ∧ (sliceRows df s e = []
        → (get_data u yf fred c a s e).resp = Except.error Err.noData)
    ∧ (sliceRows df s e ≠ []
        → (get_data u yf fred c a s e).resp = Except.ok (sliceRows df s e)) := by
  have hv2 : ¬ s > e := not_lt.mpr hv
  have hresp : (get_data u yf fred c a s e).resp
      = if sliceRows df s e = [] then Except.error Err.noData
        else Except.ok (sliceRows df s e) := by
    rw [get_data_no_fetch hv2 hn u yf fred, respond_resp, hg]
    rfl
  refine ⟨?_, List.filter_sublist _, ?_, ?_, ?_⟩
  · intro r
    simp [sliceRows, List.mem_filter, and_assoc]
  · exact List.Pairwise.sublist (List.filter_sublist _)
      (hsort.imp (fun hab => by unfold leTs at hab; omega))
  · intro h
    rw [hresp, if_pos h]
  · intro h
    rw [hresp, if_neg h]

/-- Claim C8 witness at a concrete input. -/
theorem claim_C8_witness :
    (get_data true oracleConst oracleConst [("AAPL", [⟨1, 0, [1]⟩, ⟨2, 0, [2]⟩])]
      "AAPL" 1 2).resp = Except.ok (sliceRows [⟨1, 0, [1]⟩, ⟨2, 0, [2]⟩] 1 2) :=
  (claim_C8_slice true oracleConst oracleConst (by decide) (by decide) (by decide)
    (by decide)).2.2.2.2 (by decide)

/-- Claim C9: the request outcome — response, resulting cache and upstream
call — is identical whether the backup upload succeeds or fails; the backup
failure is caught inside `backup_to_azure` and becomes a log line only. -/
theorem claim_C9_backup_isolated (yf fred : Oracle) (c : Cache) (a : String)
    (s e : Nat) (df : List Row) :
    (get_data false yf fred c a s e).resp = (get_data true yf fred c a s e).resp
    ∧ (get_data false yf fred c a s e).cacheOut = (get_data true yf fred c a s e).cacheOut
    ∧ (get_data false yf fred c a s e).fetchCall = (get_data true yf fred c a s e).fetchCall
    ∧ backupPipeline false a df = Except.error "upload failed"
    ∧ backup_to_azure false a df = "Error backing up data for " ++ a ++ ": " ++ "upload failed" :=
  ⟨(get_data_uploadOk_indep false true yf fred c a s e).1,
   (get_data_uploadOk_indep false true yf fred c a s e).2.1,
   (get_data_uploadOk_indep false true yf fred c a s e).2.2,
   rfl, rfl⟩

/-- Claim C10: both the coverage bounds and the slice filter truncate the
cached index to calendar dates, so changing the time-of-day component of
every cached timestamp (by an arbitrary reassignment `f`) changes neither
the coverage check feeding the fetch decision nor which rows the slice
keeps. -/
theorem claim_C10_date_granularity (f : Row → Nat) (df : List Row) (c : Cache)
    (a : String) (s e : Nat) :
    availStart (df.map (fun r => ⟨r.date, f r, r.vals⟩)) = availStart df
    ∧ availEnd (df.map (fun r => ⟨r.date, f r, r.vals⟩)) = availEnd df
    ∧ sliceRows (df.map (fun r => ⟨r.date, f r, r.vals⟩)) s e
        = (sliceRows df s e).map (fun r => ⟨r.date, f r, r.vals⟩)
    ∧ needsFetchB (cacheSet c a (df.map (fun r => ⟨r.date, f r, r.vals⟩))) a s e
        = needsFetchB (cacheSet c a df) a s e := by
  refine ⟨availStart_map_time f df, availEnd_map_time f df, ?_, ?_⟩
  · unfold sliceRows
    rw [List.filter_map]
    rfl
  · unfold needsFetchB
    rw [cacheGet_set_self, cacheGet_set_self]
    dsimp only
    rw [availStart_map_time, availEnd_map_time]
